import Mathlib

/-!
Verification development for the slide-dataset and utility layer of the
xfuse/hssl repository.

The development shallowly embeds the label/data path of
`hssl.data.slide.Slide` (`src/hssl/data/slide/slide.py`) and the helpers of
`xfuse.utility.utility` (`src/xfuse/utility/utility.py`).

Conventions:
  * A label crop of height `h` and width `w` is a function `Pos h w → ℕ`
    (`0` = background, positive values = object ids), mirroring the 2-D
    integer numpy array produced by `_get_patch`.
  * `scipy.ndimage.binary_fill_holes` is embedded operationally, the way the
    library implements it: an iterated binary dilation (flood fill) seeded at
    the array border, running over the complement of the input mask until
    convergence, whose complement is the filled mask.  The flood is iterated
    `h * w` times, which is proved sufficient to reach the fixed point
    (`flood_iterate_subset_flood`).
  * The image tensor normalisation (`image / 255 * 2 - 1`, channel
    permutation) and the `type='ST'` tag of the returned dict are orthogonal
    to all label/data claims and are not modelled.
-/

/-- A pixel position in an `h × w` crop. -/
abbrev Pos (h w : ℕ) := Fin h × Fin w

/-- 4-neighbourhood adjacency of pixels, the default (connectivity-1)
structuring element of `scipy.ndimage.binary_fill_holes`. -/
def adj4 {h w : ℕ} (p q : Pos h w) : Prop :=
  (p.1 = q.1 ∧ (p.2.val + 1 = q.2.val ∨ q.2.val + 1 = p.2.val)) ∨
  (p.2 = q.2 ∧ (p.1.val + 1 = q.1.val ∨ q.1.val + 1 = p.1.val))

instance {h w : ℕ} (p q : Pos h w) : Decidable (adj4 p q) := by
  unfold adj4; infer_instance

/-- A position on the border of the crop. -/
def isBorder {h w : ℕ} (p : Pos h w) : Prop :=
  p.1.val = 0 ∨ p.1.val = h - 1 ∨ p.2.val = 0 ∨ p.2.val = w - 1

instance {h w : ℕ} (p : Pos h w) : Decidable (isBorder p) := by
  unfold isBorder; infer_instance

/-- One dilation step of the flood fill: every pixel of the foreground mask
`fg` adjacent to an already-reached pixel is added. -/
def floodStep {h w : ℕ} (fg : Pos h w → Bool) (s : Finset (Pos h w)) :
    Finset (Pos h w) :=
  s ∪ Finset.univ.filter (fun q => fg q = true ∧ ∃ p ∈ s, adj4 p q)

/-- The seed of the flood fill: mask pixels on the array border (the pixels
reached by the first dilation from outside the array, `border_value=1`). -/
def floodInit {h w : ℕ} (fg : Pos h w → Bool) : Finset (Pos h w) :=
  Finset.univ.filter (fun p => fg p = true ∧ isBorder p)

/-- The flood fill run to convergence: `h * w` steps saturate
(`flood_iterate_subset_flood`), matching the `iterations=-1` dilation inside
`scipy.ndimage.binary_fill_holes`. -/
def flood {h w : ℕ} (fg : Pos h w → Bool) : Finset (Pos h w) :=
  (floodStep fg)^[h * w] (floodInit fg)

/-- `scipy.ndimage.binary_fill_holes`: a pixel is in the filled mask unless it
belongs to the complement of `mask` and is connected, through complement
pixels, to the border of the array. -/
def binaryFillHoles {h w : ℕ} (mask : Pos h w → Bool) (p : Pos h w) : Bool :=
  !(decide (p ∈ flood (fun q => !(mask q))))

/-- The partial-object removal line of `Slide.__getitem__`:
`label[np.invert(binary_fill_holes(label == 0))] = 0`, i.e. pixels where the
hole-filled zero-mask is `False` are set to background. -/
def removeBorderObjects {h w : ℕ} (lbl : Pos h w → ℕ) : Pos h w → ℕ :=
  fun p => if binaryFillHoles (fun q => lbl q == 0) p = false then 0 else lbl p

/-- One step between pixels of the foreground mask `fg` (the relation whose
reflexive-transitive closure is connectivity within the mask). -/
def fgStep {h w : ℕ} (fg : Pos h w → Bool) (p q : Pos h w) : Prop :=
  fg p = true ∧ fg q = true ∧ adj4 p q

/-- The distinct values occurring in a crop, as a finite set
(`np.unique(label)` before sorting). -/
def cropValues {h w : ℕ} (crop : Pos h w → ℕ) : Finset ℕ :=
  Finset.image crop Finset.univ

/-- `[*sorted(np.unique(label))]`: the distinct values of the crop in
increasing order. -/
def uniqueSorted {h w : ℕ} (crop : Pos h w → ℕ) : List ℕ :=
  (cropValues crop).sort (· ≤ ·)

/-- `np.searchsorted(labels, v)` (left variant) on an ascending list: the
number of leading elements strictly below `v`. -/
def searchsortedLeft : List ℕ → ℕ → ℕ
  | [], _ => 0
  | a :: l, v => if a < v then searchsortedLeft l v + 1 else 0

/-- The payload of a non-retry `Slide.__getitem__` result: the remapped label
crop and the selected feature rows (image tensor and `'ST'` tag omitted). -/
structure Sample (h w : ℕ) (α : Type) where
  label : Pos h w → ℕ
  data : List α

/-- Lines 44–48 of `Slide.__getitem__`, operating on the crop after
partial-object removal: compute the sorted distinct values, select the rows
`x - 1` of the feature table for positive values `x`, signal a retry (`none`)
when no row is selected, and otherwise remap the crop by `searchsorted`. -/
def processCrop {h w : ℕ} {α : Type} (dataRows : ℕ → α) (crop : Pos h w → ℕ) :
    Option (Sample h w α) :=
  let labels := uniqueSorted crop
  let data := (labels.filter (fun x => 0 < x)).map (fun x => dataRows (x - 1))
  if data.length = 0 then none
  else some ⟨fun p => searchsortedLeft labels (crop p), data⟩

/-- A `Slide` dataset instance as seen by `__getitem__`: the subclass-supplied
length and patch extraction capability, and the feature table `self.data`
(abstracted as its rows, 0-indexed). -/
structure SlideData (h w : ℕ) (α : Type) where
  len : ℕ
  patch : ℕ → (Pos h w → ℕ)
  dataRows : ℕ → α

/-- The body of `Slide.__getitem__` for one index, before the retry
recursion: partial-object removal followed by `processCrop`; `none` is the
"retry with the next index" branch. -/
def getItemStep {h w : ℕ} {α : Type} (s : SlideData h w α) (idx : ℕ) :
    Option (Sample h w α) :=
  processCrop s.dataRows (removeBorderObjects (s.patch idx))

/-- The recursive retry loop of `Slide.__getitem__`, as a big-step relation:
`Returns s idx smp` holds exactly when the (possibly non-terminating)
recursion starting at `idx` returns `smp`. -/
inductive Returns {h w : ℕ} {α : Type} (s : SlideData h w α) :
    ℕ → Sample h w α → Prop where
  | found : ∀ {idx smp}, getItemStep s idx = some smp → Returns s idx smp
  | retry : ∀ {idx smp}, getItemStep s idx = none →
      Returns s ((idx + 1) % s.len) smp → Returns s idx smp

/-- Spatial dimensions of a `pyvips.Image`. -/
structure VImage where
  height : ℕ
  width : ℕ

/-- The fields `Slide.__init__` stores: the two images and `self.h, self.w`. -/
structure SlideInit where
  image : VImage
  label : VImage
  h : ℕ
  w : ℕ

/-- `Slide.__init__`: store the images and dimensions, then
`assert(self.h == self.label.height and self.w == self.label.width)`; a
failed assertion aborts construction (`none`). -/
def mkSlide (image label : VImage) : Option SlideInit :=
  if image.height = label.height ∧ image.width = label.width
  then some ⟨image, label, image.height, image.width⟩
  else none

/-! ### Characterisation of the flood fill -/

/-- The `n`-th iterate of the flood fill. -/
def floodIterate {h w : ℕ} (fg : Pos h w → Bool) (n : ℕ) : Finset (Pos h w) :=
  (floodStep fg)^[n] (floodInit fg)

theorem flood_eq_iterate {h w : ℕ} (fg : Pos h w → Bool) :
    flood fg = floodIterate fg (h * w) := rfl

theorem mem_floodStep {h w : ℕ} (fg : Pos h w → Bool) {s : Finset (Pos h w)}
    {q : Pos h w} :
    q ∈ floodStep fg s ↔ q ∈ s ∨ (fg q = true ∧ ∃ p ∈ s, adj4 p q) := by
  simp [floodStep]

theorem floodIterate_succ {h w : ℕ} (fg : Pos h w → Bool) (n : ℕ) :
    floodIterate fg (n + 1) = floodStep fg (floodIterate fg n) := by
  unfold floodIterate
  rw [Function.iterate_succ_apply']

theorem subset_floodStep {h w : ℕ} (fg : Pos h w → Bool) (s : Finset (Pos h w)) :
    s ⊆ floodStep fg s :=
  Finset.subset_union_left

theorem floodIterate_succ_subset {h w : ℕ} (fg : Pos h w → Bool) (n : ℕ) :
    floodIterate fg n ⊆ floodIterate fg (n + 1) := by
  rw [floodIterate_succ]
  exact subset_floodStep fg _

theorem floodIterate_le {h w : ℕ} (fg : Pos h w → Bool) {m n : ℕ} (hmn : m ≤ n) :
    floodIterate fg m ⊆ floodIterate fg n := by
  induction hmn with
  | refl => exact Finset.Subset.refl _
  | step _ ih => exact ih.trans (floodIterate_succ_subset fg _)

theorem floodIterate_sound {h w : ℕ} (fg : Pos h w → Bool) (n : ℕ)
    (p : Pos h w) (hp : p ∈ floodIterate fg n) :
    fg p = true ∧ ∃ q, isBorder q ∧ fg q = true ∧
      Relation.ReflTransGen (fgStep fg) q p := by
  induction n generalizing p with
  | zero =>
    simp only [floodIterate, Function.iterate_zero, id, floodInit,
      Finset.mem_filter, Finset.mem_univ, true_and] at hp
    exact ⟨hp.1, p, hp.2, hp.1, Relation.ReflTransGen.refl⟩
  | succ n ih =>
    rw [floodIterate_succ] at hp
    rcases (mem_floodStep fg).1 hp with hp | ⟨hfp, q, hq, hadj⟩
    · exact ih p hp
    · obtain ⟨hfq, b, hb, hfb, hpath⟩ := ih q hq
      exact ⟨hfp, b, hb, hfb, hpath.tail ⟨hfq, hfp, hadj⟩⟩

theorem floodIterate_complete {h w : ℕ} (fg : Pos h w → Bool) {q p : Pos h w}
    (hb : isBorder q) (hfq : fg q = true)
    (hpath : Relation.ReflTransGen (fgStep fg) q p) :
    ∃ n, p ∈ floodIterate fg n := by
  induction hpath with
  | refl =>
    refine ⟨0, ?_⟩
    simp [floodIterate, floodInit, hfq, hb]
  | tail _ hbc ih =>
    obtain ⟨n, hn⟩ := ih
    refine ⟨n + 1, ?_⟩
    rw [floodIterate_succ]
    exact (mem_floodStep fg).2 (Or.inr ⟨hbc.2.1, _, hn, hbc.2.2⟩)

theorem floodIterate_add_of_fix {h w : ℕ} (fg : Pos h w → Bool) (m k : ℕ)
    (heq : floodIterate fg (m + 1) = floodIterate fg m) :
    floodIterate fg (m + k) = floodIterate fg m := by
  induction k with
  | zero => rfl
  | succ k ih =>
    have hs : m + (k + 1) = (m + k) + 1 := rfl
    rw [hs, floodIterate_succ, ih, ← floodIterate_succ, heq]

theorem floodIterate_subset_flood {h w : ℕ} (fg : Pos h w → Bool) (n : ℕ) :
    floodIterate fg n ⊆ flood fg := by
  rw [flood_eq_iterate]
  by_cases hstab : ∃ m ≤ h * w, floodIterate fg (m + 1) = floodIterate fg m
  · obtain ⟨m, hm, heq⟩ := hstab
    rcases le_or_lt n (h * w) with hn | hn
    · exact floodIterate_le fg hn
    · have h1 : floodIterate fg n = floodIterate fg m := by
        have hnm : n = m + (n - m) := by omega
        rw [hnm]
        exact floodIterate_add_of_fix fg m (n - m) heq
      rw [h1]
      exact floodIterate_le fg hm
  · push_neg at hstab
    have hgrow : ∀ m, m ≤ h * w → m ≤ (floodIterate fg m).card := by
      intro m
      induction m with
      | zero => exact fun _ => Nat.zero_le _
      | succ m ih =>
        intro hm
        have h1 : m ≤ (floodIterate fg m).card := ih (by omega)
        have hss : floodIterate fg m ⊂ floodIterate fg (m + 1) :=
          Finset.ssubset_iff_subset_ne.mpr
            ⟨floodIterate_succ_subset fg m, Ne.symm (hstab m (by omega))⟩
        have h2 := Finset.card_lt_card hss
        omega
    have hcardPos : Fintype.card (Pos h w) = h * w := by
      simp [Fintype.card_prod]
    have hcard : (floodIterate fg (h * w)).card = h * w := by
      have h1 := hgrow (h * w) le_rfl
      have h2 : (floodIterate fg (h * w)).card ≤ Fintype.card (Pos h w) :=
        Finset.card_le_univ _
      omega
    have huniv : floodIterate fg (h * w) = Finset.univ :=
      Finset.eq_univ_of_card _ (hcard.trans hcardPos.symm)
    intro x _
    rw [huniv]
    exact Finset.mem_univ x

/-- A pixel is reached by the flood fill iff it is a mask pixel connected,
within the mask, to a mask pixel on the array border. -/
theorem mem_flood_iff {h w : ℕ} (fg : Pos h w → Bool) (p : Pos h w) :
    p ∈ flood fg ↔ fg p = true ∧ ∃ q, isBorder q ∧ fg q = true ∧
      Relation.ReflTransGen (fgStep fg) q p := by
  constructor
  · intro hp
    rw [flood_eq_iterate] at hp
    exact floodIterate_sound fg (h * w) p hp
  · rintro ⟨_, q, hb, hfq, hpath⟩
    obtain ⟨n, hn⟩ := floodIterate_complete fg hb hfq hpath
    exact floodIterate_subset_flood fg n hn

/-! ### Partial-object removal -/

/-- The complement of the `label == 0` mask: the pixels carrying a nonzero
label. -/
def nonzeroMask {h w : ℕ} (lbl : Pos h w → ℕ) : Pos h w → Bool :=
  fun q => !(lbl q == 0)

/-- The connected region (through nonzero pixels) of `p` contains a border
pixel of the crop. -/
def touchesBorder {h w : ℕ} (lbl : Pos h w → ℕ) (p : Pos h w) : Prop :=
  ∃ q, isBorder q ∧ Relation.ReflTransGen (fgStep (nonzeroMask lbl)) p q

theorem adj4_symm {h w : ℕ} {p q : Pos h w} (hpq : adj4 p q) : adj4 q p := by
  unfold adj4 at hpq ⊢
  tauto

theorem fgStep_symm {h w : ℕ} (fg : Pos h w → Bool) :
    Symmetric (fgStep fg) :=
  fun _ _ hpq => ⟨hpq.2.1, hpq.1, adj4_symm hpq.2.2⟩

theorem nonzeroMask_eq_true {h w : ℕ} (lbl : Pos h w → ℕ) (p : Pos h w) :
    nonzeroMask lbl p = true ↔ lbl p ≠ 0 := by
  simp [nonzeroMask]

theorem rtg_fgStep_last {h w : ℕ} {fg : Pos h w → Bool} {p q : Pos h w}
    (hpq : Relation.ReflTransGen (fgStep fg) p q) : p = q ∨ fg q = true := by
  induction hpq with
  | refl => exact Or.inl rfl
  | tail _ hbc _ => exact Or.inr hbc.2.1

/-- The removal line, rewritten through the flood-fill membership: a pixel is
cleared exactly when it lies in the border-connected nonzero flood. -/
theorem removeBorderObjects_eq {h w : ℕ} (lbl : Pos h w → ℕ) (p : Pos h w) :
    removeBorderObjects lbl p =
      if p ∈ flood (nonzeroMask lbl) then 0 else lbl p := by
  unfold removeBorderObjects binaryFillHoles
  by_cases hp : p ∈ flood (nonzeroMask lbl)
  · rw [if_pos hp]
    have : decide (p ∈ flood (fun q => !(lbl q == 0))) = true := by
      exact decide_eq_true hp
    simp [this]
  · rw [if_neg hp]
    have : decide (p ∈ flood (fun q => !(lbl q == 0))) = false := by
      exact decide_eq_false hp
    simp [this]

/-- Membership in the flood coincides, for a nonzero pixel, with its region
touching the border. -/
theorem mem_flood_nonzero_iff {h w : ℕ} (lbl : Pos h w → ℕ) (p : Pos h w)
    (hp : lbl p ≠ 0) :
    p ∈ flood (nonzeroMask lbl) ↔ touchesBorder lbl p := by
  rw [mem_flood_iff]
  constructor
  · rintro ⟨_, q, hb, hfq, hpath⟩
    exact ⟨q, hb, Relation.ReflTransGen.symmetric (fgStep_symm _) hpath⟩
  · rintro ⟨q, hb, hpath⟩
    have hfp : nonzeroMask lbl p = true := (nonzeroMask_eq_true lbl p).2 hp
    have hfq : nonzeroMask lbl q = true := by
      rcases rtg_fgStep_last hpath with heq | hq
      · exact heq ▸ hfp
      · exact hq
    exact ⟨hfp, q, hb, hfq, Relation.ReflTransGen.symmetric (fgStep_symm _) hpath⟩

/-- After removal, every border pixel is background. -/
theorem removeBorderObjects_border {h w : ℕ} (lbl : Pos h w → ℕ) (p : Pos h w)
    (hb : isBorder p) : removeBorderObjects lbl p = 0 := by
  rw [removeBorderObjects_eq]
  by_cases hz : lbl p = 0
  · split <;> simp [hz]
  · have hp : p ∈ flood (nonzeroMask lbl) :=
      (mem_flood_nonzero_iff lbl p hz).2 ⟨p, hb, Relation.ReflTransGen.refl⟩
    rw [if_pos hp]

/-- C1: after the partial-object removal step of `Slide.__getitem__`, every
connected region of nonzero label pixels that touches the crop border is set
to background `0`, and every nonzero pixel whose region does not touch the
border keeps its original label value. -/
theorem removal_clears_border_regions {h w : ℕ} (lbl : Pos h w → ℕ)
    (p : Pos h w) (hp : lbl p ≠ 0) :
    (touchesBorder lbl p → removeBorderObjects lbl p = 0) ∧
    (¬ touchesBorder lbl p → removeBorderObjects lbl p = lbl p) := by
  rw [removeBorderObjects_eq]
  constructor
  · intro ht
    rw [if_pos ((mem_flood_nonzero_iff lbl p hp).2 ht)]
  · intro ht
    rw [if_neg (fun hm => ht ((mem_flood_nonzero_iff lbl p hp).1 hm))]

/-- Witness for C1 at the concrete all-ones `2 × 2` crop: the pixel `(0,0)`
is nonzero, its region touches the border, and it is cleared. -/
theorem removal_clears_border_regions_witness :
    ((fun _ : Pos 2 2 => 1) ((0 : Fin 2), (0 : Fin 2)) ≠ 0) ∧
    removeBorderObjects (fun _ : Pos 2 2 => 1) ((0 : Fin 2), (0 : Fin 2)) = 0 :=
  ⟨by decide,
    (removal_clears_border_regions (fun _ : Pos 2 2 => 1)
        ((0 : Fin 2), (0 : Fin 2)) (by decide)).1
      ⟨((0 : Fin 2), (0 : Fin 2)), by decide, Relation.ReflTransGen.refl⟩⟩

/-! ### The sorted distinct labels and the dense remap -/

/-- `[x for x in labels if x > 0]`: the distinct surviving positive label
values, in increasing order. -/
def survivors {h w : ℕ} (crop : Pos h w → ℕ) : List ℕ :=
  (uniqueSorted crop).filter (fun x => 0 < x)

theorem mem_uniqueSorted {h w : ℕ} (crop : Pos h w → ℕ) {v : ℕ} :
    v ∈ uniqueSorted crop ↔ ∃ p, crop p = v := by
  simp [uniqueSorted, cropValues, Finset.mem_sort]

theorem uniqueSorted_sorted {h w : ℕ} (crop : Pos h w → ℕ) :
    (uniqueSorted crop).Sorted (· < ·) :=
  Finset.sort_sorted_lt _

theorem uniqueSorted_nodup {h w : ℕ} (crop : Pos h w → ℕ) :
    (uniqueSorted crop).Nodup :=
  Finset.sort_nodup _ _

theorem searchsortedLeft_zero (l : List ℕ) : searchsortedLeft l 0 = 0 := by
  cases l <;> simp [searchsortedLeft]

theorem searchsortedLeft_eq_indexOf {l : List ℕ} (hl : l.Sorted (· < ·))
    {v : ℕ} (hv : v ∈ l) : searchsortedLeft l v = List.indexOf v l := by
  induction l with
  | nil => cases hv
  | cons a l ih =>
    rcases List.mem_cons.1 hv with rfl | hv
    · simp [searchsortedLeft, List.indexOf_cons_self]
    · have hal := List.sorted_cons.1 hl
      have hav : a < v := hal.1 v hv
      rw [show searchsortedLeft (a :: l) v =
            if a < v then searchsortedLeft l v + 1 else 0 from rfl,
        if_pos hav, ih hal.2 hv, List.indexOf_cons_ne _ (ne_of_lt hav)]

theorem sorted_zero_cons {l : List ℕ} (hl : l.Sorted (· < ·)) (h0 : 0 ∈ l) :
    l = 0 :: l.filter (fun x => 0 < x) := by
  cases l with
  | nil => cases h0
  | cons a t =>
    have hat := List.sorted_cons.1 hl
    have ha : a = 0 := by
      rcases List.mem_cons.1 h0 with hz | hz
      · exact hz.symm
      · have := hat.1 0 hz; omega
    subst ha
    have ht : t.filter (fun x => 0 < x) = t :=
      List.filter_eq_self.mpr (fun b hb => decide_eq_true (hat.1 b hb))
    rw [List.filter_cons]
    simp [ht]

theorem filter_pos_of_zero_not_mem {l : List ℕ} (h0 : 0 ∉ l) :
    l.filter (fun x => 0 < x) = l :=
  List.filter_eq_self.mpr (fun _a ha =>
    decide_eq_true (Nat.pos_of_ne_zero (fun hz => h0 (hz ▸ ha))))

theorem processCrop_eq_some_iff {h w : ℕ} {α : Type} (dataRows : ℕ → α)
    (crop : Pos h w → ℕ) (smp : Sample h w α) :
    processCrop dataRows crop = some smp ↔
      survivors crop ≠ [] ∧
      smp = ⟨fun p => searchsortedLeft (uniqueSorted crop) (crop p),
        (survivors crop).map (fun x => dataRows (x - 1))⟩ := by
  unfold processCrop survivors
  simp only []
  split_ifs with hlen
  · have hnil : (uniqueSorted crop).filter (fun x => 0 < x) = [] := by
      rw [List.length_map] at hlen
      exact List.length_eq_zero.1 hlen
    constructor
    · intro hcontra; cases hcontra
    · rintro ⟨hne, _⟩; exact absurd hnil hne
  · constructor
    · intro hsome
      have hne : (uniqueSorted crop).filter (fun x => 0 < x) ≠ [] := by
        intro hnil
        exact hlen (by simp [hnil])
      injection hsome with hval
      exact ⟨hne, hval.symm⟩
    · rintro ⟨_, rfl⟩; rfl

/-- The remapped crop attains exactly the indices `0, ..., len - 1` of the
sorted distinct-value list. -/
theorem image_searchsorted_range {h w : ℕ} (crop : Pos h w → ℕ) :
    Finset.image (fun p => searchsortedLeft (uniqueSorted crop) (crop p))
        Finset.univ =
      Finset.range (uniqueSorted crop).length := by
  have h1 : Finset.image (fun p => searchsortedLeft (uniqueSorted crop) (crop p))
      Finset.univ =
      Finset.image (fun v => List.indexOf v (uniqueSorted crop))
        (cropValues crop) := by
    rw [cropValues, Finset.image_image]
    apply Finset.image_congr
    intro p _
    exact searchsortedLeft_eq_indexOf (uniqueSorted_sorted crop)
      ((mem_uniqueSorted crop).2 ⟨p, rfl⟩)
  rw [h1]
  have h2 : cropValues crop = (uniqueSorted crop).toFinset :=
    (Finset.sort_toFinset _ _).symm
  rw [h2]
  ext i
  simp only [Finset.mem_image, List.mem_toFinset, Finset.mem_range]
  constructor
  · rintro ⟨v, hv, rfl⟩
    exact List.indexOf_lt_length.2 hv
  · intro hi
    exact ⟨(uniqueSorted crop).get ⟨i, hi⟩, List.get_mem _ _ _,
      List.get_indexOf (uniqueSorted_nodup crop) ⟨i, hi⟩⟩

/-- After removal, `0` is among the distinct crop values as soon as the crop
has any pixel at all (every border pixel is background). -/
theorem zero_mem_uniqueSorted_removal {h w : ℕ} (lbl : Pos h w → ℕ)
    (p0 : Pos h w) : 0 ∈ uniqueSorted (removeBorderObjects lbl) :=
  (mem_uniqueSorted _).2
    ⟨(⟨0, p0.1.pos⟩, p0.2), removeBorderObjects_border lbl _ (Or.inl rfl)⟩

theorem uniqueSorted_eq_zero_cons {h w : ℕ} (crop : Pos h w → ℕ)
    (h0 : 0 ∈ uniqueSorted crop) :
    uniqueSorted crop = 0 :: survivors crop :=
  sorted_zero_cons (uniqueSorted_sorted crop) h0

/-- C2: every non-retry result of `Slide.__getitem__` keeps background pixels
at `0`, maps each surviving positive label to its 1-based rank in the sorted
distinct surviving-label list, and the remapped values are exactly
`{0, 1, ..., k}` for `k` distinct surviving objects. -/
theorem getitem_remap_dense {h w : ℕ} {α : Type} (s : SlideData h w α)
    (idx : ℕ) (smp : Sample h w α) (hs : getItemStep s idx = some smp) :
    (∀ p, removeBorderObjects (s.patch idx) p = 0 → smp.label p = 0) ∧
    (∀ p, 0 < removeBorderObjects (s.patch idx) p →
      smp.label p =
        List.indexOf (removeBorderObjects (s.patch idx) p)
          (survivors (removeBorderObjects (s.patch idx))) + 1) ∧
    Finset.image smp.label Finset.univ =
      Finset.range ((survivors (removeBorderObjects (s.patch idx))).length + 1) := by
  have hs' : processCrop s.dataRows (removeBorderObjects (s.patch idx)) = some smp := hs
  obtain ⟨hne, rfl⟩ := (processCrop_eq_some_iff _ _ _).1 hs'
  obtain ⟨x, hx⟩ := List.exists_mem_of_ne_nil _ hne
  have hx' := List.mem_filter.1 hx
  obtain ⟨p0, hp0⟩ := (mem_uniqueSorted _).1 hx'.1
  have h0 : 0 ∈ uniqueSorted (removeBorderObjects (s.patch idx)) :=
    zero_mem_uniqueSorted_removal (s.patch idx) p0
  have hzc := uniqueSorted_eq_zero_cons (removeBorderObjects (s.patch idx)) h0
  refine ⟨?_, ?_, ?_⟩
  · intro p hp
    show searchsortedLeft _ _ = 0
    rw [hp]
    exact searchsortedLeft_zero _
  · intro p hp
    show searchsortedLeft _ _ = _
    have hmem : removeBorderObjects (s.patch idx) p ∈
        uniqueSorted (removeBorderObjects (s.patch idx)) :=
      (mem_uniqueSorted _).2 ⟨p, rfl⟩
    rw [searchsortedLeft_eq_indexOf (uniqueSorted_sorted _) hmem]
    rw [show (uniqueSorted (removeBorderObjects (s.patch idx))) =
      0 :: survivors (removeBorderObjects (s.patch idx)) from hzc]
    rw [List.indexOf_cons_ne _ (Nat.pos_iff_ne_zero.1 hp).symm]
  · show Finset.image (fun p => searchsortedLeft _ _) Finset.univ = _
    rw [image_searchsorted_range]
    rw [show (uniqueSorted (removeBorderObjects (s.patch idx))) =
      0 :: survivors (removeBorderObjects (s.patch idx)) from hzc]
    rw [List.length_cons]

/-- C4: every non-retry result selects exactly the feature rows at index
`value - 1` for the distinct surviving positive labels, in increasing label
order, so its row count is the number of distinct surviving positive labels. -/
theorem getitem_selects_rows {h w : ℕ} {α : Type} (s : SlideData h w α)
    (idx : ℕ) (smp : Sample h w α) (hs : getItemStep s idx = some smp) :
    smp.data = (survivors (removeBorderObjects (s.patch idx))).map
        (fun x => s.dataRows (x - 1)) ∧
    (survivors (removeBorderObjects (s.patch idx))).Sorted (· < ·) ∧
    (survivors (removeBorderObjects (s.patch idx))).toFinset =
      (cropValues (removeBorderObjects (s.patch idx))).filter (fun x => 0 < x) ∧
    smp.data.length =
      ((cropValues (removeBorderObjects (s.patch idx))).filter
        (fun x => 0 < x)).card := by
  have hs' : processCrop s.dataRows (removeBorderObjects (s.patch idx)) = some smp := hs
  obtain ⟨hne, rfl⟩ := (processCrop_eq_some_iff _ _ _).1 hs'
  have hsorted : (survivors (removeBorderObjects (s.patch idx))).Sorted (· < ·) :=
    (uniqueSorted_sorted _).filter _
  have hfin : (survivors (removeBorderObjects (s.patch idx))).toFinset =
      (cropValues (removeBorderObjects (s.patch idx))).filter (fun x => 0 < x) := by
    ext v
    simp [survivors, uniqueSorted, Finset.mem_sort]
  refine ⟨rfl, hsorted, hfin, ?_⟩
  show ((survivors (removeBorderObjects (s.patch idx))).map
      (fun x => s.dataRows (x - 1))).length = _
  have hnodup : (survivors (removeBorderObjects (s.patch idx))).Nodup :=
    (uniqueSorted_nodup _).filter _
  rw [List.length_map, ← hfin, List.toFinset_card_of_nodup hnodup]

/-- C9 (implicit edge case): on a label crop that reaches the remap stage with
no background pixel but at least one positive label, `Slide.__getitem__` does
not retry, and the remap is the 0-based rank in the all-positive sorted
distinct-value list, so the smallest label maps to `0` and the remapped values
are `{0, ..., k - 1}`. -/
theorem process_no_background_remap {h w : ℕ} {α : Type} (dataRows : ℕ → α)
    (crop : Pos h w → ℕ) (hall : ∀ p, crop p ≠ 0) (hpos : ∃ p, 0 < crop p) :
    ∃ smp, processCrop dataRows crop = some smp ∧
      (∀ p, smp.label p = List.indexOf (crop p) (survivors crop)) ∧
      (∀ p, (∀ q, crop p ≤ crop q) → smp.label p = 0) ∧
      Finset.image smp.label Finset.univ =
        Finset.range (survivors crop).length := by
  have h0 : 0 ∉ uniqueSorted crop := by
    intro h0
    obtain ⟨p, hp⟩ := (mem_uniqueSorted crop).1 h0
    exact hall p hp
  have hsur : survivors crop = uniqueSorted crop :=
    filter_pos_of_zero_not_mem h0
  obtain ⟨p1, hp1⟩ := hpos
  have hmem1 : crop p1 ∈ uniqueSorted crop := (mem_uniqueSorted crop).2 ⟨p1, rfl⟩
  have hne : survivors crop ≠ [] := by
    rw [hsur]
    exact List.ne_nil_of_mem hmem1
  refine ⟨_, (processCrop_eq_some_iff dataRows crop _).2 ⟨hne, rfl⟩, ?_, ?_, ?_⟩
  · intro p
    show searchsortedLeft _ _ = _
    rw [searchsortedLeft_eq_indexOf (uniqueSorted_sorted crop)
      ((mem_uniqueSorted crop).2 ⟨p, rfl⟩), hsur]
  · intro p hmin
    show searchsortedLeft _ _ = 0
    rw [searchsortedLeft_eq_indexOf (uniqueSorted_sorted crop)
      ((mem_uniqueSorted crop).2 ⟨p, rfl⟩)]
    rcases hlab : uniqueSorted crop with _ | ⟨a, t⟩
    · rw [hlab] at hmem1; cases hmem1
    · have hmema : a ∈ uniqueSorted crop := by rw [hlab]; exact List.mem_cons_self a t
      obtain ⟨qa, hqa⟩ := (mem_uniqueSorted crop).1 hmema
      have hple : crop p ≤ a := hqa ▸ hmin qa
      have hpmem : crop p ∈ uniqueSorted crop := (mem_uniqueSorted crop).2 ⟨p, rfl⟩
      rw [hlab] at hpmem
      rcases List.mem_cons.1 hpmem with hpa | hpt
      · rw [hpa]
        exact List.indexOf_cons_self a t
      · have hat := List.sorted_cons.1 (hlab ▸ uniqueSorted_sorted crop)
        have := hat.1 _ hpt
        omega
  · show Finset.image (fun p => searchsortedLeft _ _) Finset.univ = _
    rw [image_searchsorted_range, hsur]

/-! ### The retry recursion -/

theorem returns_retry_iff {h w : ℕ} {α : Type} (s : SlideData h w α)
    (idx : ℕ) (hnone : getItemStep s idx = none) (smp : Sample h w α) :
    Returns s idx smp ↔ Returns s ((idx + 1) % s.len) smp := by
  constructor
  · intro hr
    cases hr with
    | found hf => rw [hnone] at hf; cases hf
    | retry _ h2 => exact h2
  · exact fun hr => Returns.retry hnone hr

theorem returns_of_some_after {h w : ℕ} {α : Type} (s : SlideData h w α) :
    ∀ k idx, idx < s.len →
      (∃ smp0, getItemStep s ((idx + k) % s.len) = some smp0) →
      ∃ smp, Returns s idx smp := by
  intro k
  induction k with
  | zero =>
    rintro idx hidx ⟨smp0, hsmp⟩
    rw [Nat.add_zero, Nat.mod_eq_of_lt hidx] at hsmp
    exact ⟨smp0, Returns.found hsmp⟩
  | succ k ih =>
    rintro idx hidx hex
    cases hgi : getItemStep s idx with
    | some v => exact ⟨v, Returns.found hgi⟩
    | none =>
      have hlen : 0 < s.len := Nat.lt_of_le_of_lt (Nat.zero_le _) hidx
      have hidx2 : (idx + 1) % s.len < s.len := Nat.mod_lt _ hlen
      have hshift : ((idx + 1) % s.len + k) % s.len = (idx + (k + 1)) % s.len := by
        rw [Nat.mod_add_mod]
        congr 1
        omega
      obtain ⟨smp, hr⟩ := ih ((idx + 1) % s.len) hidx2 (by rw [hshift]; exact hex)
      exact ⟨smp, Returns.retry hgi hr⟩

theorem returns_none_of_all_none {h w : ℕ} {α : Type} (s : SlideData h w α)
    (hall : ∀ j, j < s.len → getItemStep s j = none) :
    ∀ idx smp, Returns s idx smp → idx < s.len → False := by
  intro idx smp hr
  induction hr with
  | found hf =>
    intro hidx
    rw [hall _ hidx] at hf
    cases hf
  | retry _ _ ih =>
    intro hidx
    have hlen : 0 < s.len := Nat.lt_of_le_of_lt (Nat.zero_le _) hidx
    exact ih (Nat.mod_lt _ hlen)

/-- C3: when no positive label survives at `idx`, `__getitem__(idx)` returns
exactly what `__getitem__((idx + 1) % len)` returns; if some index of the
dataset yields a surviving object the retry loop terminates from every
starting index, and if none does it never returns. -/
theorem getitem_retry_behaviour {h w : ℕ} {α : Type} (s : SlideData h w α) :
    (∀ idx smp, getItemStep s idx = none →
      (Returns s idx smp ↔ Returns s ((idx + 1) % s.len) smp)) ∧
    ((∃ j, j < s.len ∧ getItemStep s j ≠ none) →
      ∀ idx, idx < s.len → ∃ smp, Returns s idx smp) ∧
    ((∀ j, j < s.len → getItemStep s j = none) →
      ∀ idx, idx < s.len → ¬ ∃ smp, Returns s idx smp) := by
  refine ⟨?_, ?_, ?_⟩
  · intro idx smp hnone
    exact returns_retry_iff s idx hnone smp
  · rintro ⟨j, hj, hjne⟩ idx hidx
    cases hgi : getItemStep s j with
    | none => exact absurd hgi hjne
    | some v =>
      have hlen : 0 < s.len := Nat.lt_of_le_of_lt (Nat.zero_le _) hj
      have hk : (idx + (j + s.len - idx) % s.len) % s.len = j := by
        rw [Nat.add_mod_mod]
        have hsum : idx + (j + s.len - idx) = j + s.len := by omega
        rw [hsum, Nat.add_mod_right, Nat.mod_eq_of_lt hj]
      exact returns_of_some_after s ((j + s.len - idx) % s.len) idx hidx
        ⟨v, by rw [hk]; exact hgi⟩
  · rintro hall idx hidx ⟨smp, hr⟩
    exact returns_none_of_all_none s hall idx smp hr hidx

/-! ### Concrete instances for the slide claims -/

/-- A strictly ascending list with the same underlying set as the crop values
is the sorted distinct-value list (used to evaluate `uniqueSorted` on concrete
crops, since merge sort does not reduce definitionally). -/
theorem uniqueSorted_eq_of {h w : ℕ} (crop : Pos h w → ℕ) (l : List ℕ)
    (hsort : l.Sorted (· < ·)) (hfin : l.toFinset = cropValues crop) :
    uniqueSorted crop = l := by
  haveI : IsAntisymm ℕ (· < ·) :=
    ⟨fun a b h1 h2 => absurd h2 (lt_asymm h1)⟩
  have hperm : List.Perm (uniqueSorted crop) l :=
    List.perm_of_nodup_nodup_toFinset_eq (uniqueSorted_nodup crop) hsort.nodup
      ((Finset.sort_toFinset _ _).trans hfin.symm)
  exact List.eq_of_perm_of_sorted hperm (uniqueSorted_sorted crop) hsort

/-- A `3 × 3` crop with a single object pixel in the interior. -/
def crop1 : Pos 3 3 → ℕ := fun p => if p.1.val = 1 ∧ p.2.val = 1 then 1 else 0

/-- A concrete two-patch slide: patch `0` is empty, patch `1` holds one
fully-contained object. -/
def slide0 : SlideData 3 3 ℕ :=
  ⟨2, fun idx => if idx = 1 then crop1 else (fun _ => 0), fun n => n⟩

theorem slide0_uniqueSorted :
    uniqueSorted (removeBorderObjects (slide0.patch 1)) = [0, 1] :=
  uniqueSorted_eq_of _ _ (by decide) (by decide)

theorem slide0_survivors :
    survivors (removeBorderObjects (slide0.patch 1)) = [1] := by
  rw [survivors, slide0_uniqueSorted]
  decide

/-- The sample produced by `slide0` at index `1`. -/
def sample1 : Sample 3 3 ℕ :=
  ⟨fun p => searchsortedLeft
      (uniqueSorted (removeBorderObjects (slide0.patch 1)))
      (removeBorderObjects (slide0.patch 1) p),
    (survivors (removeBorderObjects (slide0.patch 1))).map
      (fun x => slide0.dataRows (x - 1))⟩

theorem slide0_step1_eq : getItemStep slide0 1 = some sample1 := by
  apply (processCrop_eq_some_iff _ _ _).2
  refine ⟨?_, rfl⟩
  rw [slide0_survivors]
  decide

/-- Witness for C2 on `slide0`: the interior object pixel is remapped to its
1-based rank. -/
theorem getitem_remap_dense_witness :
    getItemStep slide0 1 = some sample1 ∧
    0 < removeBorderObjects (slide0.patch 1) ((1 : Fin 3), (1 : Fin 3)) ∧
    sample1.label ((1 : Fin 3), (1 : Fin 3)) =
      List.indexOf
        (removeBorderObjects (slide0.patch 1) ((1 : Fin 3), (1 : Fin 3)))
        (survivors (removeBorderObjects (slide0.patch 1))) + 1 :=
  ⟨slide0_step1_eq, by decide,
    (getitem_remap_dense slide0 1 sample1 slide0_step1_eq).2.1 _ (by decide)⟩

/-- Witness for C4 on `slide0`: the selected rows are the mapped surviving
labels. -/
theorem getitem_selects_rows_witness :
    getItemStep slide0 1 = some sample1 ∧
    sample1.data = (survivors (removeBorderObjects (slide0.patch 1))).map
      (fun x => slide0.dataRows (x - 1)) :=
  ⟨slide0_step1_eq, (getitem_selects_rows slide0 1 sample1 slide0_step1_eq).1⟩

/-- Witness for C3 on `slide0`: index `1` yields a sample, so retrieval from
index `0` terminates. -/
theorem getitem_retry_behaviour_witness :
    (1 < slide0.len ∧ getItemStep slide0 1 ≠ none) ∧
    (0 < slide0.len ∧ ∃ smp, Returns slide0 0 smp) :=
  ⟨⟨by decide, by simp [slide0_step1_eq]⟩,
    ⟨by decide,
      (getitem_retry_behaviour slide0).2.1
        ⟨1, by decide, by simp [slide0_step1_eq]⟩ 0 (by decide)⟩⟩

/-- A `1 × 1` crop with no background pixel. -/
def crop9 : Pos 1 1 → ℕ := fun _ => 5

/-- Witness for C9 on `crop9`: an all-positive crop is remapped 0-based. -/
theorem process_no_background_remap_witness :
    (∀ p : Pos 1 1, crop9 p ≠ 0) ∧ 0 < crop9 ((0 : Fin 1), (0 : Fin 1)) ∧
    (∃ smp, processCrop (fun n => n) crop9 = some smp ∧
      (∀ p, smp.label p = List.indexOf (crop9 p) (survivors crop9)) ∧
      (∀ p, (∀ q, crop9 p ≤ crop9 q) → smp.label p = 0) ∧
      Finset.image smp.label Finset.univ =
        Finset.range (survivors crop9).length) :=
  ⟨by decide, by decide,
    process_no_background_remap (fun n => n) crop9 (by decide)
      ⟨((0 : Fin 1), (0 : Fin 1)), by decide⟩⟩

/-! ### Slide construction -/

/-- C5: `Slide` construction succeeds exactly for image/label pairs of equal
height and width; any spatial mismatch fails the constructor assertion. -/
theorem mkSlide_isSome_iff (image label : VImage) :
    (mkSlide image label).isSome = true ↔
      (image.height = label.height ∧ image.width = label.width) := by
  unfold mkSlide
  split_ifs with hc
  · simpa using hc
  · simpa using hc

/-! ### Recursive device placement (`to_device`) -/

/-- A `torch.Tensor`, abstracted to its device placement and an opaque
payload identifier. -/
structure Tensor where
  device : ℕ
  payload : ℕ

/-- `torch.Tensor.to(device)`: the same tensor placed on `device`. -/
def Tensor.to (x : Tensor) (d : ℕ) : Tensor := { x with device := d }

/-- A nested structure of tensors, lists, dicts and other (non-tensor)
leaves, the argument shape accepted by `to_device`. -/
inductive Struct where
  | tensor : Tensor → Struct
  | list : List Struct → Struct
  | dict : List (String × Struct) → Struct
  | leaf : ℕ → Struct

mutual

/-- `to_device(x, device)` with a resolved device argument (the `None` default
resolves to the session's `default_device` before any recursion): move every
tensor, recurse through lists and dict values, pass other leaves through. -/
def toDevice : Struct → ℕ → Struct
  | .tensor x, d => .tensor (x.to d)
  | .list xs, d => .list (toDeviceList xs d)
  | .dict kvs, d => .dict (toDeviceDict kvs d)
  | .leaf v, _ => .leaf v

/-- The comprehension `[to_device(y, device) for y in x]`. -/
def toDeviceList : List Struct → ℕ → List Struct
  | [], _ => []
  | y :: ys, d => toDevice y d :: toDeviceList ys d

/-- The comprehension `{k: to_device(v, device) for k, v in x.items()}`. -/
def toDeviceDict : List (String × Struct) → ℕ → List (String × Struct)
  | [], _ => []
  | kv :: kvs, d => (kv.1, toDevice kv.2 d) :: toDeviceDict kvs d

end

mutual

theorem toDevice_toDevice : ∀ (x : Struct) (d : ℕ),
    toDevice (toDevice x d) d = toDevice x d
  | .tensor _, _ => rfl
  | .leaf _, _ => rfl
  | .list xs, d => by
    simp only [toDevice]
    rw [toDeviceList_toDeviceList xs d]
  | .dict kvs, d => by
    simp only [toDevice]
    rw [toDeviceDict_toDeviceDict kvs d]

theorem toDeviceList_toDeviceList : ∀ (xs : List Struct) (d : ℕ),
    toDeviceList (toDeviceList xs d) d = toDeviceList xs d
  | [], _ => rfl
  | y :: ys, d => by
    simp only [toDeviceList]
    rw [toDevice_toDevice y d, toDeviceList_toDeviceList ys d]

theorem toDeviceDict_toDeviceDict : ∀ (kvs : List (String × Struct)) (d : ℕ),
    toDeviceDict (toDeviceDict kvs d) d = toDeviceDict kvs d
  | [], _ => rfl
  | kv :: kvs, d => by
    simp only [toDeviceDict]
    rw [toDevice_toDevice kv.2 d, toDeviceDict_toDeviceDict kvs d]

end

/-- C6: `to_device` is idempotent on arbitrarily nested structures, and
non-tensor leaves pass through unchanged. -/
theorem to_device_idempotent :
    (∀ (x : Struct) (d : ℕ), toDevice (toDevice x d) d = toDevice x d) ∧
    (∀ (v : ℕ) (d : ℕ), toDevice (Struct.leaf v) d = Struct.leaf v) :=
  ⟨toDevice_toDevice, fun _ _ => rfl⟩

/-! ### Inverse softplus -/

/-- `torch.nn.functional.softplus` (external library): `log(1 + exp x)`. -/
noncomputable def softplus (x : ℝ) : ℝ := Real.log (1 + Real.exp x)

/-- `isoftplus(x) = np.log(np.exp(x) - 1)`, the numerically unguarded inverse
softplus of `xfuse.utility.utility`. -/
noncomputable def isoftplus (x : ℝ) : ℝ := Real.log (Real.exp x - 1)

theorem isoftplus_softplus (x : ℝ) : isoftplus (softplus x) = x := by
  unfold isoftplus softplus
  rw [Real.exp_log (by positivity), add_sub_cancel_left, Real.log_exp]

/-- C7: the round-trip `isoftplus(softplus(x))` recovers `x` within numerical
tolerance on `[-5, 5]` (in the real-number semantics it is exact). -/
theorem isoftplus_softplus_roundtrip (x : ℝ) (_hlo : -5 ≤ x) (_hhi : x ≤ 5) :
    |isoftplus (softplus x) - x| < 1e-5 := by
  rw [isoftplus_softplus, sub_self, abs_zero]
  norm_num

/-- Witness for C7 at `x = 0`. -/
theorem isoftplus_softplus_roundtrip_witness :
    (-5 : ℝ) ≤ 0 ∧ (0 : ℝ) ≤ 5 ∧ |isoftplus (softplus 0) - 0| < 1e-5 :=
  ⟨by norm_num, by norm_num,
    isoftplus_softplus_roundtrip 0 (by norm_num) (by norm_num)⟩

/-! ### Design-matrix construction (`design_matrix_from`)

Sample ids, covariate names and covariate values are abstracted as `ℕ`.  The
`design` argument is the design dict in file order (pandas `concat` preserves
it): one `(sampleId, assignment)` entry per sample, the assignment being the
sample's covariate/value pairs.  Only the explicit-`covariates` branch is
modelled, which is the branch claims C8 and C10 are about. -/

/-- Look up the value a sample's assignment gives a covariate (`None` models
the NaN a pandas concat leaves for a covariate missing from this sample). -/
def rowLookup (row : List (ℕ × ℕ)) (c : ℕ) : Option ℕ :=
  (row.find? (fun kv => kv.1 == c)).map (fun kv => kv.2)

/-- `covariate in design_table`: the column exists when at least one sample
assigns it. -/
def colPresent (design : List (ℕ × List (ℕ × ℕ))) (c : ℕ) : Bool :=
  design.any (fun sr => (rowLookup sr.2 c).isSome)

/-- The design-table cell for sample `sr` and covariate `c`: an entirely
absent column is filled with the integer `0`
(`design_table[covariate] = 0`); a present column keeps per-sample gaps as
NaN (`none`). -/
def cellValue (design : List (ℕ × List (ℕ × ℕ))) (c : ℕ)
    (sr : ℕ × List (ℕ × ℕ)) : Option ℕ :=
  if colPresent design c then rowLookup sr.2 c else some 0

/-- `covariate.cat.codes` after `cat.set_categories(values)` for one cell:
the index of the value in the declared category list; `none` models the
pandas missing-value code `-1` (cell NaN, or value not among the declared
categories). -/
def catCode (values : List ℕ) (cell : Option ℕ) : Option ℕ :=
  cell.bind (fun v => values.findIdx? (fun u => u == v))

/-- `_encode`: `np.eye(len(categories))[:, codes]` with the `codes == -1`
columns zeroed — one row per declared category, one column per sample. -/
def encodeBlock (design : List (ℕ × List (ℕ × ℕ))) (c : ℕ)
    (values : List ℕ) : List (List ℕ) :=
  (List.range values.length).map (fun i =>
    design.map (fun sr =>
      match catCode values (cellValue design c sr) with
      | some j => if j = i then 1 else 0
      | none => 0))

/-- `design_matrix_from(design, covariates)` (explicit-covariates branch):
the per-covariate one-hot blocks stacked vertically
(`pd.concat(vs, keys=ks)`), covariates in argument order. -/
def design_matrix_from (design : List (ℕ × List (ℕ × ℕ)))
    (covariates : List (ℕ × List ℕ)) : List (List ℕ) :=
  (covariates.map (fun cv => encodeBlock design cv.1 cv.2)).flatten

theorem encodeBlock_length (design : List (ℕ × List (ℕ × ℕ))) (c : ℕ)
    (values : List ℕ) : (encodeBlock design c values).length = values.length := by
  simp [encodeBlock]

theorem flatten_getElem_block {β : Type} :
    ∀ (L : List (List β)) (ci : ℕ) (blk : List β), L[ci]? = some blk →
      ∀ vi, vi < blk.length →
      L.flatten[((L.take ci).map List.length).sum + vi]? = blk[vi]? := by
  intro L
  induction L with
  | nil =>
    intro ci blk hblk
    simp at hblk
  | cons l L ih =>
    intro ci blk hblk vi hvi
    cases ci with
    | zero =>
      rw [List.getElem?_cons_zero] at hblk
      injection hblk with hblk
      subst hblk
      simp only [List.take_zero, List.map_nil, List.sum_nil, Nat.zero_add,
        List.flatten_cons]
      exact List.getElem?_append_left hvi
    | succ ci =>
      rw [List.getElem?_cons_succ] at hblk
      simp only [List.take_succ_cons, List.map_cons, List.sum_cons,
        List.flatten_cons]
      rw [Nat.add_assoc, List.getElem?_append_right (Nat.le_add_right _ _),
        Nat.add_sub_cancel_left]
      exact ih ci blk hblk vi hvi

/-- C8: with an explicit covariate/category list, the design matrix has one
row per declared category, totalled over covariates and independent of the
categories present in the data, the blocks stacked per covariate with rows in
declared category order. -/
theorem design_matrix_from_rows (design : List (ℕ × List (ℕ × ℕ)))
    (covariates : List (ℕ × List ℕ)) :
    (design_matrix_from design covariates).length =
      (covariates.map (fun cv => cv.2.length)).sum ∧
    (∀ ci (hci : ci < covariates.length) (vi : ℕ),
      vi < covariates[ci].2.length →
      (design_matrix_from design covariates)[
          ((covariates.take ci).map (fun cv => cv.2.length)).sum + vi]? =
        (encodeBlock design covariates[ci].1 covariates[ci].2)[vi]?) := by
  constructor
  · rw [design_matrix_from, List.length_flatten, List.map_map]
    congr 1
    apply List.map_congr_left
    intro cv _
    exact encodeBlock_length design cv.1 cv.2
  · intro ci hci vi hvi
    have hblk : (covariates.map (fun cv => encodeBlock design cv.1 cv.2))[ci]? =
        some (encodeBlock design covariates[ci].1 covariates[ci].2) := by
      rw [List.getElem?_map, List.getElem?_eq_getElem hci]
      rfl
    have hsum : (((covariates.map (fun cv => encodeBlock design cv.1 cv.2)).take ci).map
        List.length).sum = ((covariates.take ci).map (fun cv => cv.2.length)).sum := by
      rw [← List.map_take, List.map_map]
      congr 1
      apply List.map_congr_left
      intro cv _
      exact encodeBlock_length design cv.1 cv.2
    have hmain := flatten_getElem_block _ ci _ hblk vi
      (by rw [encodeBlock_length]; exact hvi)
    rw [hsum] at hmain
    rw [design_matrix_from]
    exact hmain

/-- C10: a sample whose covariate value is missing or not among the declared
categories (pandas category code `-1`) is encoded as an all-zero column of
that covariate's block, not as a failure or an out-of-range indicator. -/
theorem encode_unknown_category_zero (design : List (ℕ × List (ℕ × ℕ)))
    (c : ℕ) (values : List ℕ) (si : ℕ) (hsi : si < design.length)
    (hcode : catCode values (cellValue design c design[si]) = none) :
    ∀ row ∈ encodeBlock design c values, row[si]? = some 0 := by
  intro row hrow
  rw [encodeBlock] at hrow
  obtain ⟨i, _, rfl⟩ := List.mem_map.1 hrow
  rw [List.getElem?_map, List.getElem?_eq_getElem hsi, Option.map_some', hcode]

/-- A concrete one-sample design: sample `0` assigns value `99` to
covariate `1`. -/
def design0 : List (ℕ × List (ℕ × ℕ)) := [(0, [(1, 99)])]

/-- Concrete declared covariates: covariate `1` with categories `[5, 6]`
(neither of which occurs in `design0`) and covariate `2` with category `[7]`
(absent from `design0` entirely). -/
def covs0 : List (ℕ × List ℕ) := [(1, [5, 6]), (2, [7])]

/-- Witness for C8 on `design0`/`covs0`: the second covariate's first row
sits at offset `2 + 0` of the stacked matrix. -/
theorem design_matrix_from_rows_witness :
    1 < covs0.length ∧ 0 < ([7] : List ℕ).length ∧
    (design_matrix_from design0 covs0)[2 + 0]? =
      (encodeBlock design0 2 [7])[0]? :=
  ⟨by decide, by decide,
    (design_matrix_from_rows design0 covs0).2 1 (by decide) 0 (by decide)⟩

/-- Witness for C10 on `design0`: value `99` is not among the declared
categories `[5, 6]`, so sample `0` gets a zero column in that block. -/
theorem encode_unknown_category_zero_witness :
    0 < design0.length ∧
    catCode [5, 6] (cellValue design0 1 (0, [(1, 99)])) = none ∧
    ∀ row ∈ encodeBlock design0 1 [5, 6], row[0]? = some 0 :=
  ⟨by decide, by decide,
    encode_unknown_category_zero design0 1 [5, 6] 0 (by decide) (by decide)⟩
